import Mathlib

/-
Shallow embedding of `src/extractTrackChanges.ts`, a regex-based extractor of
OOXML tracked changes (insertions, deletions, moves, comments) from a docx
package.  Every scanner in the source is a JavaScript global-regex loop over
raw markup text; each is embedded here as an executable character-list scanner
implementing the exact leftmost-match, alternative-priority and greedy/lazy
semantics of the concrete pattern it models.
-/

namespace Docx

/-- Strips the literal `p` from the front of `s`; `none` when `p` is not a
prefix of `s`. -/
def stripPref : List Char → List Char → Option (List Char)
  | [], s => some s
  | _ :: _, [] => none
  | c :: p, d :: s => if c = d then stripPref p s else none

/-- Splits `s` at the first occurrence of the literal `pat`:
`some (before, after)` with `s = before ++ pat ++ after`, else `none`.
This is the lazy `([\s\S]*?)` step of the paired-element patterns: content is
everything strictly before the first closing tag. -/
def splitAtSub (pat : List Char) : List Char → Option (List Char × List Char)
  | [] =>
    match stripPref pat [] with
    | some rest => some ([], rest)
    | none => none
  | c :: t =>
    match stripPref pat (c :: t) with
    | some rest => some ([], rest)
    | none =>
      match splitAtSub pat t with
      | some (pre, rest) => some (c :: pre, rest)
      | none => none

/-- `TrackChange.type` values of the source. -/
inductive ChangeType where
  | insertion
  | deletion
  | moveFrom
  | moveTo
  deriving DecidableEq, Repr

/-- The `TrackChange` interface of the source (`id` is the optional `w:id`). -/
structure TrackChange where
  type : ChangeType
  author : String
  date : String
  text : String
  id : Option String := none
  deriving DecidableEq, Repr

/-- The `Comment` interface of the source; `commentedText` is the optional
anchored text filled in by `findCommentedText`. -/
structure Comment where
  id : String
  author : String
  date : String
  text : String
  commentedText : Option String := none
  deriving DecidableEq, Repr

/-- The `moves` aggregate of the source result (fields `from`/`to` there;
`from` is a Lean keyword, hence `fromChanges`/`toChanges`). -/
structure Moves where
  fromChanges : List TrackChange
  toChanges : List TrackChange
  deriving DecidableEq, Repr

/-- The `TrackChangesResult` interface of the source. -/
structure TrackChangesResult where
  insertions : List TrackChange
  deletions : List TrackChange
  moves : Moves
  comments : List Comment
  deriving DecidableEq, Repr

/-- One match of the text-run pattern `<TAG[^>]*>([^<]*)</TAG>` at the current
position (TAG is `w:t` for live runs, `w:delText` for deleted runs): the
attribute part runs to the first unmatched-`>`, the capture to the next `<`,
which must begin the closing tag.  Returns the capture and the remainder. -/
def matchTextTagAt (tag : List Char) (s : List Char) : Option (List Char × List Char) :=
  match stripPref ('<' :: tag) s with
  | none => none
  | some s1 =>
    match s1.dropWhile (· != '>') with
    | '>' :: s2 =>
      match stripPref ('<' :: '/' :: tag ++ ['>']) (s2.dropWhile (· != '<')) with
      | some s3 => some (s2.takeWhile (· != '<'), s3)
      | none => none
    | _ => none

/-- Global scan of the text-run pattern: leftmost match, resume after each
match, advance one character on failure.  Fuelled by the input length (every
match consumes at least one character, so the fuel never runs out). -/
def textScanAux (tag : List Char) : Nat → List Char → List String
  | 0, _ => []
  | fuel + 1, s =>
    match matchTextTagAt tag s with
    | some (cap, rest) => String.mk cap :: textScanAux tag fuel rest
    | none =>
      match s with
      | [] => []
      | _ :: t => textScanAux tag fuel t

/-- `extractTextFromElement` of the source: joins the captures of all matches
of `<w:t[^>]*>([^<]*)</w:t>` over the fragment. -/
def extractTextFromElement (element : String) : String :=
  String.join (textScanAux "w:t".toList element.toList.length element.toList)

/-- The deleted-run text extraction inlined in the source's `parseDeletions`:
same scan with the `w:delText` tag. -/
def extractDelText (element : String) : String :=
  String.join (textScanAux "w:delText".toList element.toList.length element.toList)

/-- First match of `NAME="([^"]*)"` in an attribute string: the value is the
run of non-quote characters after the first occurrence of `NAME="`, provided a
closing quote follows.  When the first occurrence lacks a closing quote, no
quote at all remains after it, so no later occurrence (whose own literal ends
in a quote) can exist either: answering `none` there is faithful to the regex
scan over later positions. -/
def attrAux (pat : List Char) : List Char → Option String
  | [] =>
    match stripPref pat [] with
    | some rest =>
      match rest.dropWhile (· != '"') with
      | '"' :: _ => some (String.mk (rest.takeWhile (· != '"')))
      | _ => none
    | none => none
  | c :: t =>
    match stripPref pat (c :: t) with
    | some rest =>
      match rest.dropWhile (· != '"') with
      | '"' :: _ => some (String.mk (rest.takeWhile (· != '"')))
      | _ => none
    | none => attrAux pat t

/-- `attrs.match(/NAME="([^"]*)"/)` of the source, as the captured value. -/
def matchAttr (name : String) (attrs : String) : Option String :=
  attrAux (name.toList ++ ['=', '"']) attrs.toList

/-- One match of the change-element alternation
`<w:TAG\s+([^>]*)>([\s\S]*?)</w:TAG>|<w:TAG\s+([^>]*)/>` at the current
position.  The paired alternative is tried first: after the literal open tag,
at least one whitespace character, then attributes up to the first `>`, then
content lazily up to the first closing tag.  When no closing tag follows, the
self-closing alternative requires the attribute run to end in a slash (the
backtracked `[^>]*` before the literal `/>`).  `selfClose := false` drops the
second alternative (the comment-definition pattern has none). -/
def matchElemAt (tag : List Char) (selfClose : Bool) (s : List Char) :
    Option (String × String × List Char) :=
  match stripPref ('<' :: tag) s with
  | none => none
  | some s1 =>
    if s1.takeWhile Char.isWhitespace = [] then none
    else
      let s2 := s1.dropWhile Char.isWhitespace
      let attrs := s2.takeWhile (· != '>')
      match s2.dropWhile (· != '>') with
      | '>' :: s3 =>
        match splitAtSub ('<' :: '/' :: tag ++ ['>']) s3 with
        | some (content, rest) => some (String.mk attrs, String.mk content, rest)
        | none =>
          if selfClose then
            match attrs.getLast? with
            | some '/' => some (String.mk attrs.dropLast, "", s3)
            | _ => none
          else none
      | _ => none

/-- Global scan of the change-element pattern: the `while (regex.exec(...))`
loop of the source, yielding the (attributes, content) capture pairs in match
order. -/
def elemScanAux (tag : List Char) (selfClose : Bool) :
    Nat → List Char → List (String × String)
  | 0, _ => []
  | fuel + 1, s =>
    match matchElemAt tag selfClose s with
    | some (attrs, content, rest) => (attrs, content) :: elemScanAux tag selfClose fuel rest
    | none =>
      match s with
      | [] => []
      | _ :: t => elemScanAux tag selfClose fuel t

/-- All matches of the change-element pattern for `tag` over `doc`. -/
def elemScan (tag : String) (selfClose : Bool) (doc : String) : List (String × String) :=
  elemScanAux tag.toList selfClose doc.toList.length doc.toList

/-- The record built from one change-element match, shared by all four
change scanners of the source: attributes default to `"Unknown"` / `""` /
`undefined`, and the element is dropped (`if (text)`) when its extracted text
is the empty string. -/
def changeOfMatch (kind : ChangeType) (textOf : String → String) (m : String × String) :
    Option TrackChange :=
  if textOf m.2 = "" then none
  else
    some
      { type := kind
        author := (matchAttr "w:author" m.1).getD "Unknown"
        date := (matchAttr "w:date" m.1).getD ""
        text := textOf m.2
        id := matchAttr "w:id" m.1 }

/-- `parseInsertions` of the source. -/
def parseInsertions (documentXml : String) : List TrackChange :=
  (elemScan "w:ins" true documentXml).filterMap
    (changeOfMatch ChangeType.insertion extractTextFromElement)

/-- `parseDeletions` of the source: deleted text is read from `w:delText`
elements, not from live `w:t` runs. -/
def parseDeletions (documentXml : String) : List TrackChange :=
  (elemScan "w:del" true documentXml).filterMap
    (changeOfMatch ChangeType.deletion extractDelText)

/-- `parseMoves` of the source. -/
def parseMoves (documentXml : String) : Moves :=
  { fromChanges :=
      (elemScan "w:moveFrom" true documentXml).filterMap
        (changeOfMatch ChangeType.moveFrom extractTextFromElement)
    toChanges :=
      (elemScan "w:moveTo" true documentXml).filterMap
        (changeOfMatch ChangeType.moveTo extractTextFromElement) }

/-- The `Comment` built from one comment-definition match: emitted
unconditionally, even when the body text is empty. -/
def commentOfMatch (m : String × String) : Comment :=
  { id := (matchAttr "w:id" m.1).getD ""
    author := (matchAttr "w:author" m.1).getD "Unknown"
    date := (matchAttr "w:date" m.1).getD ""
    text := extractTextFromElement m.2
    commentedText := none }

/-- `parseComments` of the source: `null` (absent comments part) yields `[]`;
otherwise one `Comment` per `<w:comment ...>...</w:comment>` match. -/
def parseComments : Option String → List Comment
  | none => []
  | some commentsXml => (elemScan "w:comment" false commentsXml).map commentOfMatch

/-- All valid `w:id="(\d+)"` captures inside the pre-`>` span of a range
marker, in left-to-right position order.  A capture is valid when the literal
`w:id="` is followed by at least one digit and then a closing quote.  Greedy
backtracking of the surrounding `[^>]*` picks the last valid capture. -/
def idCaptures : List Char → List (List Char)
  | [] => []
  | c :: t =>
    match stripPref "w:id=\"".toList (c :: t) with
    | some r =>
      if r.takeWhile Char.isDigit = [] then idCaptures t
      else if (r.dropWhile Char.isDigit).head? = some '"' then
        r.takeWhile Char.isDigit :: idCaptures t
      else idCaptures t
    | none => idCaptures t

/-- One match of the range-marker pattern `<TAG[^>]*w:id="(\d+)"[^>]*/>` at
the current position.  The whole match runs to the first `>` after the literal
open tag; the character before that `>` must be the slash of `/>`, and the
span before the slash must contain a valid digit id capture (the last one is
the regex's capture).  Returns the captured digits and the remainder. -/
def matchMarkerAt (tag : List Char) (s : List Char) : Option (List Char × List Char) :=
  match stripPref ('<' :: tag) s with
  | none => none
  | some s1 =>
    if (s1.dropWhile (· != '>')).head? = some '>' then
      if (s1.takeWhile (· != '>')).getLast? = some '/' then
        match (idCaptures (s1.takeWhile (· != '>')).dropLast).getLast? with
        | some d => some (d, (s1.dropWhile (· != '>')).tail)
        | none => none
      else none
    else none

/-- Global scan of the range-marker pattern, recording each match's starting
offset in the raw text (the `match.index` the source stores). -/
def markerScanAux (tag : List Char) : Nat → List Char → Nat → List (String × Nat)
  | 0, _, _ => []
  | fuel + 1, s, pos =>
    match matchMarkerAt tag s with
    | some (d, rest) =>
      (String.mk d, pos) :: markerScanAux tag fuel rest (pos + (s.length - rest.length))
    | none =>
      match s with
      | [] => []
      | _ :: t => markerScanAux tag fuel t (pos + 1)

/-- All (id, offset) pairs of range markers for `tag` over `doc`. -/
def markerScan (tag : String) (doc : String) : List (String × Nat) :=
  markerScanAux tag.toList doc.toList.length doc.toList 0

/-- The `{ start, end }` value of the source's `commentRanges` map (`end` is a
Lean keyword, hence `stop`); `stop = -1` marks an end not yet recorded. -/
structure CRange where
  start : Int
  stop : Int
  deriving DecidableEq, Repr

/-- `Map.set`: a later binding for the same key shadows the earlier one. -/
def setR (m : List (String × CRange)) (id : String) (r : CRange) : List (String × CRange) :=
  (id, r) :: m

/-- `Map.get`: the most recent binding for the key. -/
def lookupR (m : List (String × CRange)) (id : String) : Option CRange :=
  (m.find? (fun q => q.1 == id)).map (fun q => q.2)

/-- The source's first loop over range starts:
`commentRanges.set(id, { start: match.index, end: -1 })` for each match, so a
repeated id overwrites the earlier entry. -/
def recordStarts (m : List (String × CRange)) (l : List (String × Nat)) :
    List (String × CRange) :=
  l.foldl (fun acc p => setR acc p.1 ⟨(p.2 : Int), -1⟩) m

/-- The source's second loop over range ends: for each match whose id is
already in the map, `range.end = match.index` (again overwriting on repeat);
ids without a recorded start are ignored. -/
def recordEnds (m : List (String × CRange)) (l : List (String × Nat)) :
    List (String × CRange) :=
  l.foldl
    (fun acc p =>
      match lookupR acc p.1 with
      | some r => setR acc p.1 ⟨r.start, (p.2 : Int)⟩
      | none => acc)
    m

/-- The `commentRanges` map built by `findCommentedText` in the source. -/
def commentRanges (documentXml : String) : List (String × CRange) :=
  recordEnds (recordStarts [] (markerScan "w:commentRangeStart" documentXml))
    (markerScan "w:commentRangeEnd" documentXml)

/-- `String.prototype.substring(a, b)`: clamps both indices to `[0, length]`,
swaps them when out of order, and returns the characters in between. -/
def substrJS (s : String) (a b : Int) : String :=
  let n : Int := (s.toList.length : Int)
  let a2 := min (max a 0) n
  let b2 := min (max b 0) n
  let lo := min a2 b2
  let hi := max a2 b2
  String.mk ((s.toList.drop lo.toNat).take (hi - lo).toNat)

/-- The per-comment body of the source's `findCommentedText` map: when the
range map holds the comment's id with `start >= 0` and `end > start`, the
anchored text is the run-text extraction of the raw substring between the two
offsets; otherwise the comment is returned unchanged. -/
def enrichComment (documentXml : String) (ranges : List (String × CRange))
    (comment : Comment) : Comment :=
  match lookupR ranges comment.id with
  | some range =>
    if 0 ≤ range.start ∧ range.start < range.stop then
      { comment with
          commentedText :=
            some (extractTextFromElement (substrJS documentXml range.start range.stop)) }
    else comment
  | none => comment

/-- `findCommentedText` of the source. -/
def findCommentedText (documentXml : String) (comments : List Comment) : List Comment :=
  comments.map (enrichComment documentXml (commentRanges documentXml))

/-- The opened docx archive, as the map of entry paths the source reads
through `zip.file(path)`. -/
structure Zip where
  entries : List (String × String)
  deriving DecidableEq, Repr

/-- `zip.file(path)` of JSZip: the entry at the exact path, if any. -/
def zfile (zip : Zip) (path : String) : Option String :=
  (zip.entries.find? (fun q => q.1 == path)).map (fun q => q.2)

/-- The only error the core itself throws:
`"Invalid .docx file: missing word/document.xml"`. -/
inductive DocxError where
  | malformedPackage
  deriving DecidableEq, Repr

/-- `extractTrackChanges` of the source, over an already-opened archive. -/
def extractTrackChanges (zip : Zip) : Except DocxError TrackChangesResult :=
  match zfile zip "word/document.xml" with
  | none => Except.error DocxError.malformedPackage
  | some documentXml =>
    let commentsXml := zfile zip "word/comments.xml"
    Except.ok
      { insertions := parseInsertions documentXml
        deletions := parseDeletions documentXml
        moves := parseMoves documentXml
        comments := findCommentedText documentXml (parseComments commentsXml) }

/-- A non-empty all-decimal-digit string: the shape of every id the range
marker pattern `w:id="(\d+)"` can capture. -/
def digitId (id : String) : Bool :=
  !id.toList.isEmpty && id.toList.all (fun c => c.isDigit)

/-- The index of the last marker occurrence carrying `id`, i.e. the value an
overwrite-on-repeat single pass leaves behind. -/
def lastOcc (id : String) : List (String × Nat) → Option Nat
  | [] => none
  | p :: t =>
    match lastOcc id t with
    | some i => some i
    | none => if p.1 = id then some p.2 else none

/- Concrete inputs used by the example theorems and witnesses below. -/

/-- A document body with one attributed insertion containing the run `hello`. -/
def docIns : String :=
  "<w:ins w:author=\"A\" w:date=\"2024-01-01T00:00:00Z\"><w:r><w:t>hello</w:t></w:r></w:ins>"

/-- A comments part with one comment definition whose body has no text run. -/
def xmlComment : String :=
  "<w:comments><w:comment w:id=\"0\" w:author=\"A\"></w:comment></w:comments>"

/-- A document body with one deletion recording its text under `w:delText`. -/
def docDel : String :=
  "<w:del w:id=\"9\" w:author=\"B\" w:date=\"2024-01-01T00:00:00Z\"><w:delText>removed</w:delText></w:del>"

/-- A deletion element whose content is a live `w:t` run, not a `w:delText`. -/
def docDelLive : String := "<w:del w:id=\"9\"><w:t>live</w:t></w:del>"

/-- A document body with two comment-range-start markers for the same id:
the first occupies offsets 0 to 30, the second starts at offset 33. -/
def docDup : String :=
  "<w:commentRangeStart w:id=\"1\"/>AB<w:commentRangeStart w:id=\"1\"/>"

/-- A document body with a matched range pair bracketing `target phrase`:
start marker at offset 0, end marker at offset 55. -/
def docAnchor : String :=
  "<w:commentRangeStart w:id=\"1\"/><w:t>target phrase</w:t><w:commentRangeEnd w:id=\"1\"/>"

/-- An archive without the required `word/document.xml` entry. -/
def zipNoDoc : Zip := ⟨[("word/styles.xml", "x")]⟩

/-- An archive with only the required document part. -/
def zipDocOnly : Zip := ⟨[("word/document.xml", "<w:document><w:body></w:body></w:document>")]⟩

/-- An archive whose document part is `docIns`, plus an unrelated entry. -/
def zipExtra : Zip := ⟨[("word/document.xml", docIns), ("word/media/image1.png", "bytes")]⟩

/-- An archive whose document part is `docIns` and nothing else. -/
def zipPlain : Zip := ⟨[("word/document.xml", docIns)]⟩

/-- A comment whose id `1` matches the range pair of `docAnchor`. -/
def commentNote : Comment := { id := "1", author := "A", date := "", text := "note" }

/-- A comment with the default empty id (no `w:id` attribute on its
definition element). -/
def commentNoId : Comment := { id := "", author := "A", date := "", text := "note" }

/- Helper lemmas. -/

theorem lookupR_setR (m : List (String × CRange)) (k id : String) (r : CRange) :
    lookupR (setR m k r) id = if k = id then some r else lookupR m id := by
  by_cases h : k = id
  · subst h
    simp [lookupR, setR, List.find?]
  · have hb : (k == id) = false := by simp [h]
    simp [lookupR, setR, List.find?, hb, h]

theorem recordStarts_lookup (l : List (String × Nat)) (m : List (String × CRange))
    (id : String) :
    lookupR (recordStarts m l) id =
      match lastOcc id l with
      | some i => some ⟨(i : Int), -1⟩
      | none => lookupR m id := by
  induction l generalizing m with
  | nil => rfl
  | cons p t ih =>
    have hstep : recordStarts m (p :: t)
        = recordStarts (setR m p.1 ⟨(p.2 : Int), -1⟩) t := rfl
    rw [hstep, ih]
    cases ht : lastOcc id t with
    | some i => simp [lastOcc, ht]
    | none =>
      simp only [lastOcc, ht]
      rw [lookupR_setR]
      by_cases hp : p.1 = id <;> simp [hp]

theorem recordEnds_lookup (l : List (String × Nat)) (m : List (String × CRange))
    (id : String) :
    lookupR (recordEnds m l) id =
      match lookupR m id with
      | none => none
      | some r =>
        some ⟨r.start, match lastOcc id l with | some j => (j : Int) | none => r.stop⟩ := by
  induction l generalizing m with
  | nil =>
    cases h : lookupR m id with
    | none => simpa [recordEnds, lastOcc] using h
    | some r => simpa [recordEnds, lastOcc] using h
  | cons p t ih =>
    have h0 : recordEnds m (p :: t)
        = recordEnds
            (match lookupR m p.1 with
             | some r => setR m p.1 ⟨r.start, (p.2 : Int)⟩
             | none => m) t := rfl
    cases hm : lookupR m p.1 with
    | none =>
      have hstep : recordEnds m (p :: t) = recordEnds m t := by rw [h0, hm]
      rw [hstep, ih]
      by_cases hp : p.1 = id
      · subst hp
        rw [hm]
      · have hlast : lastOcc id (p :: t) = lastOcc id t := by
          cases ht : lastOcc id t <;> simp [lastOcc, ht, hp]
        rw [hlast]
    | some r =>
      have hstep : recordEnds m (p :: t)
          = recordEnds (setR m p.1 ⟨r.start, (p.2 : Int)⟩) t := by rw [h0, hm]
      rw [hstep, ih, lookupR_setR]
      by_cases hp : p.1 = id
      · subst hp
        rw [if_pos rfl, hm]
        cases ht : lastOcc p.1 t with
        | some j => simp [lastOcc, ht]
        | none => simp [lastOcc, ht]
      · rw [if_neg hp]
        have hlast : lastOcc id (p :: t) = lastOcc id t := by
          cases ht : lastOcc id t <;> simp [lastOcc, ht, hp]
        rw [hlast]

theorem commentRanges_lookup (doc : String) (id : String) :
    lookupR (commentRanges doc) id =
      match lastOcc id (markerScan "w:commentRangeStart" doc) with
      | none => none
      | some i =>
        some ⟨(i : Int),
          match lastOcc id (markerScan "w:commentRangeEnd" doc) with
          | some j => (j : Int)
          | none => -1⟩ := by
  unfold commentRanges
  rw [recordEnds_lookup, recordStarts_lookup]
  cases hs : lastOcc id (markerScan "w:commentRangeStart" doc) with
  | none => simp [lookupR]
  | some i => simp

theorem lastOcc_mem (id : String) (l : List (String × Nat)) (i : Nat)
    (h : lastOcc id l = some i) : ∃ p ∈ l, p.1 = id ∧ p.2 = i := by
  induction l with
  | nil => simp [lastOcc] at h
  | cons p t ih =>
    simp only [lastOcc] at h
    cases ht : lastOcc id t with
    | some j =>
      rw [ht] at h
      injection h with h
      subst h
      obtain ⟨q, hq, h1, h2⟩ := ih ht
      exact ⟨q, List.mem_cons_of_mem _ hq, h1, h2⟩
    | none =>
      rw [ht] at h
      by_cases hp : p.1 = id
      · rw [if_pos hp] at h
        injection h with h
        exact ⟨p, List.mem_cons_self _ _, hp, h⟩
      · rw [if_neg hp] at h
        exact absurd h (by simp)

theorem lastOcc_eq_none (id : String) (l : List (String × Nat))
    (h : ∀ p ∈ l, p.1 ≠ id) : lastOcc id l = none := by
  induction l with
  | nil => rfl
  | cons p t ih =>
    simp only [lastOcc]
    rw [ih (fun q hq => h q (List.mem_cons_of_mem _ hq))]
    simp [h p (List.mem_cons_self _ _)]

theorem getLastQ_mem {α : Type} {l : List α} {a : α} (h : l.getLast? = some a) : a ∈ l := by
  obtain ⟨hne, heq⟩ := List.mem_getLast?_eq_getLast (show a ∈ l.getLast? from h)
  rw [heq]
  exact List.getLast_mem hne

theorem idCaptures_digit (core : List Char) :
    ∀ d ∈ idCaptures core, d ≠ [] ∧ ∀ c ∈ d, c.isDigit := by
  induction core with
  | nil => intro d hd; simp [idCaptures] at hd
  | cons c t ih =>
    intro d hd
    simp only [idCaptures] at hd
    split at hd
    · split at hd
      · exact ih d hd
      · split at hd
        · cases hd with
          | head => exact ⟨by assumption, fun ch hch => List.mem_takeWhile_imp hch⟩
          | tail _ hd => exact ih d hd
        · exact ih d hd
    · exact ih d hd

theorem matchMarkerAt_digit (tag s d rest : List Char)
    (h : matchMarkerAt tag s = some (d, rest)) : d ≠ [] ∧ ∀ c ∈ d, c.isDigit := by
  unfold matchMarkerAt at h
  split at h
  · exact absurd h (by simp)
  · split at h
    · split at h
      · split at h
        · rename_i d2 h4
          simp only [Option.some.injEq, Prod.mk.injEq] at h
          obtain ⟨rfl, rfl⟩ := h
          exact idCaptures_digit _ d2 (getLastQ_mem h4)
        · exact absurd h (by simp)
      · exact absurd h (by simp)
    · exact absurd h (by simp)

theorem markerScanAux_digit (tag : List Char) :
    ∀ (fuel : Nat) (s : List Char) (pos : Nat),
      ∀ p ∈ markerScanAux tag fuel s pos, digitId p.1 = true := by
  intro fuel
  induction fuel with
  | zero => intro s pos p hp; simp [markerScanAux] at hp
  | succ n ih =>
    intro s pos p hp
    simp only [markerScanAux] at hp
    cases hm : matchMarkerAt tag s with
    | some pr =>
      obtain ⟨d, rest⟩ := pr
      rw [hm] at hp
      have hd := matchMarkerAt_digit tag s d rest hm
      cases hp with
      | head =>
        show digitId (String.mk d) = true
        cases d with
        | nil => exact absurd rfl hd.1
        | cons ch cs =>
          simp only [digitId, String.toList, Bool.and_eq_true, Bool.not_eq_true',
            List.all_eq_true]
          exact ⟨rfl, fun x hx => hd.2 x hx⟩
      | tail _ hp => exact ih rest _ p hp
    | none =>
      rw [hm] at hp
      cases s with
      | nil => simp at hp
      | cons c t => exact ih t _ p hp

theorem markerScan_digit (tag doc : String) : ∀ p ∈ markerScan tag doc, digitId p.1 = true :=
  fun p hp => markerScanAux_digit tag.toList _ _ _ p hp

theorem changeOfMatch_eq (kind : ChangeType) (textOf : String → String) (m : String × String)
    (tc : TrackChange) (h : changeOfMatch kind textOf m = some tc) :
    textOf m.2 ≠ "" ∧
      tc = { type := kind
             author := (matchAttr "w:author" m.1).getD "Unknown"
             date := (matchAttr "w:date" m.1).getD ""
             text := textOf m.2
             id := matchAttr "w:id" m.1 } := by
  unfold changeOfMatch at h
  by_cases hc : textOf m.2 = ""
  · rw [if_pos hc] at h; exact absurd h (by simp)
  · rw [if_neg hc] at h
    injection h with h
    exact ⟨hc, h.symm⟩

theorem filterMap_changeOfMatch_text_ne (kind : ChangeType) (textOf : String → String)
    (l : List (String × String)) (tc : TrackChange)
    (h : tc ∈ l.filterMap (changeOfMatch kind textOf)) : tc.text ≠ "" := by
  obtain ⟨m, _, he⟩ := List.mem_filterMap.mp h
  obtain ⟨hne, rfl⟩ := changeOfMatch_eq kind textOf m tc he
  exact hne

theorem enrichComment_of_lookup_none (doc : String) (R : List (String × CRange)) (c : Comment)
    (h : lookupR R c.id = none) : enrichComment doc R c = c := by
  unfold enrichComment
  rw [h]

theorem enrichComment_fields (doc : String) (R : List (String × CRange)) (c : Comment) :
    (enrichComment doc R c).id = c.id ∧ (enrichComment doc R c).author = c.author ∧
    (enrichComment doc R c).date = c.date ∧ (enrichComment doc R c).text = c.text ∧
    ((enrichComment doc R c).commentedText = c.commentedText ∨
      ∃ t, (enrichComment doc R c).commentedText = some t) := by
  unfold enrichComment
  split
  · split
    · exact ⟨rfl, rfl, rfl, rfl, Or.inr ⟨_, rfl⟩⟩
    · exact ⟨rfl, rfl, rfl, rfl, Or.inl rfl⟩
  · exact ⟨rfl, rfl, rfl, rfl, Or.inl rfl⟩

theorem enrichComment_of_lookup_some_pos (doc : String) (R : List (String × CRange))
    (c : Comment) (r : CRange) (h : lookupR R c.id = some r)
    (hg : 0 ≤ r.start ∧ r.start < r.stop) :
    enrichComment doc R c =
      { c with commentedText := some (extractTextFromElement (substrJS doc r.start r.stop)) } := by
  unfold enrichComment
  rw [h]
  show (if 0 ≤ r.start ∧ r.start < r.stop then
      { c with commentedText := some (extractTextFromElement (substrJS doc r.start r.stop)) }
    else c) = _
  rw [if_pos hg]

theorem enrichComment_of_lookup_some_neg (doc : String) (R : List (String × CRange))
    (c : Comment) (r : CRange) (h : lookupR R c.id = some r)
    (hg : ¬(0 ≤ r.start ∧ r.start < r.stop)) :
    enrichComment doc R c = c := by
  unfold enrichComment
  rw [h]
  show (if 0 ≤ r.start ∧ r.start < r.stop then
      { c with commentedText := some (extractTextFromElement (substrJS doc r.start r.stop)) }
    else c) = c
  rw [if_neg hg]

/- Claim theorems. -/

/-- Claim C1: every tracked-change record in a scanner's result sequence has
non-empty text (an element whose extracted text is empty is dropped), while
every matched comment-definition element yields a `Comment` in the result,
body text empty or not. -/
theorem c1 :
    (∀ doc tc, tc ∈ parseInsertions doc → tc.text ≠ "") ∧
    (∀ doc tc, tc ∈ parseDeletions doc → tc.text ≠ "") ∧
    (∀ doc tc, tc ∈ (parseMoves doc).fromChanges → tc.text ≠ "") ∧
    (∀ doc tc, tc ∈ (parseMoves doc).toChanges → tc.text ≠ "") ∧
    (∀ xml m, m ∈ elemScan "w:comment" false xml →
      commentOfMatch m ∈ parseComments (some xml)) := by
  refine ⟨?_, ?_, ?_, ?_, ?_⟩
  · intro doc tc h
    exact filterMap_changeOfMatch_text_ne _ _ _ _ h
  · intro doc tc h
    exact filterMap_changeOfMatch_text_ne _ _ _ _ h
  · intro doc tc h
    exact filterMap_changeOfMatch_text_ne _ _ _ _ h
  · intro doc tc h
    exact filterMap_changeOfMatch_text_ne _ _ _ _ h
  · intro xml m h
    exact List.mem_map_of_mem commentOfMatch h

theorem c1_witness :
    ({ type := ChangeType.insertion, author := "A", date := "2024-01-01T00:00:00Z",
       text := "hello", id := none } : TrackChange).text ≠ "" ∧
    commentOfMatch ("w:id=\"0\" w:author=\"A\"", "") ∈ parseComments (some xmlComment) := by
  constructor
  · exact c1.1 docIns _ (by decide)
  · exact c1.2.2.2.2 xmlComment _ (by decide)

/-- Claim C2: an archive without `word/document.xml` makes extraction fail
with the malformed-package error; an archive with a document part but no
`word/comments.xml` extracts successfully with an empty comments sequence. -/
theorem c2 (z : Zip) :
    (zfile z "word/document.xml" = none →
      extractTrackChanges z = Except.error DocxError.malformedPackage) ∧
    (∀ d, zfile z "word/document.xml" = some d → zfile z "word/comments.xml" = none →
      ∃ r, extractTrackChanges z = Except.ok r ∧ r.comments = []) := by
  constructor
  · intro h
    unfold extractTrackChanges
    rw [h]
  · intro d h1 h2
    refine ⟨{ insertions := parseInsertions d, deletions := parseDeletions d,
              moves := parseMoves d,
              comments := findCommentedText d (parseComments (zfile z "word/comments.xml")) },
      ?_, ?_⟩
    · unfold extractTrackChanges
      rw [h1]
    · show findCommentedText d (parseComments (zfile z "word/comments.xml")) = []
      rw [h2]
      rfl

theorem c2_witness :
    extractTrackChanges zipNoDoc = Except.error DocxError.malformedPackage ∧
    ∃ r, extractTrackChanges zipDocOnly = Except.ok r ∧ r.comments = [] :=
  ⟨(c2 zipNoDoc).1 rfl, (c2 zipDocOnly).2 _ rfl rfl⟩

/-- Claim C5: the author, date and id attributes of a matched change element
are each optional; when absent the emitted record carries `"Unknown"`, `""`
and no id respectively (and record construction is total, so absence never
faults). -/
theorem c5 (kind : ChangeType) (textOf : String → String) (attrs content : String)
    (tc : TrackChange) (h : changeOfMatch kind textOf (attrs, content) = some tc) :
    (matchAttr "w:author" attrs = none → tc.author = "Unknown") ∧
    (matchAttr "w:date" attrs = none → tc.date = "") ∧
    (matchAttr "w:id" attrs = none → tc.id = none) := by
  obtain ⟨-, rfl⟩ := changeOfMatch_eq kind textOf (attrs, content) tc h
  refine ⟨fun ha => ?_, fun hd => ?_, fun hi => ?_⟩
  · show (matchAttr "w:author" attrs).getD "Unknown" = "Unknown"
    rw [ha]
    rfl
  · show (matchAttr "w:date" attrs).getD "" = ""
    rw [hd]
    rfl
  · show matchAttr "w:id" attrs = none
    exact hi

theorem c5_witness :
    changeOfMatch ChangeType.insertion extractTextFromElement ("", "<w:t>hi</w:t>") =
      some { type := ChangeType.insertion, author := "Unknown", date := "", text := "hi",
             id := none } ∧
    ({ type := ChangeType.insertion, author := "Unknown", date := "", text := "hi",
       id := none } : TrackChange).author = "Unknown" := by
  have h : changeOfMatch ChangeType.insertion extractTextFromElement ("", "<w:t>hi</w:t>") =
      some { type := ChangeType.insertion, author := "Unknown", date := "", text := "hi",
             id := none } := by decide
  exact ⟨h, (c5 _ _ _ _ _ h).1 (by decide)⟩

/-- Claim C6: a document body with one deletion whose content records
`removed` under the delete-text tag yields exactly one deletion with that
text, the insertions sequence does not contain that text, and a deletion
whose content holds only a live text run contributes nothing (delete-text
extraction ignores ordinary runs). -/
theorem c6 :
    parseDeletions docDel =
      [{ type := ChangeType.deletion, author := "B", date := "2024-01-01T00:00:00Z",
         text := "removed", id := some "9" }] ∧
    (parseInsertions docDel).all (fun tc => tc.text != "removed") = true ∧
    parseDeletions docDelLive = [] := by
  exact ⟨by decide, by decide, by decide⟩

/-- Claim C8: extraction is deterministic — two results of the entry point on
the same archive are structurally identical (the embedding is a pure function
of the archive contents). -/
theorem c8 (z : Zip) (r1 r2 : Except DocxError TrackChangesResult)
    (h1 : extractTrackChanges z = r1) (h2 : extractTrackChanges z = r2) : r1 = r2 :=
  h1 ▸ h2 ▸ rfl

theorem c8_witness : extractTrackChanges zipPlain = extractTrackChanges zipPlain :=
  c8 zipPlain _ _ rfl rfl

/-- Claim C9: the result depends only on the `word/document.xml` and
`word/comments.xml` entries — archives agreeing on those two lookups extract
identically, whatever else they contain. -/
theorem c9 (z1 z2 : Zip)
    (h1 : zfile z1 "word/document.xml" = zfile z2 "word/document.xml")
    (h2 : zfile z1 "word/comments.xml" = zfile z2 "word/comments.xml") :
    extractTrackChanges z1 = extractTrackChanges z2 := by
  simp only [extractTrackChanges, h1, h2]

theorem c9_witness : extractTrackChanges zipExtra = extractTrackChanges zipPlain :=
  c9 zipExtra zipPlain rfl rfl

/-- Claim C3: for a comment whose anchored text starts unset, the resolver
sets it exactly when the position map holds its id with a start at or after
offset zero and an end strictly after it, and then the anchored text is the
run-text extraction of the raw document text between the two offsets; with no
recorded end for the id the field stays unset. -/
theorem c3 (doc : String) (c : Comment) (hc : c.commentedText = none) :
    (∀ t, (enrichComment doc (commentRanges doc) c).commentedText = some t ↔
      ∃ r, lookupR (commentRanges doc) c.id = some r ∧ 0 ≤ r.start ∧ r.start < r.stop ∧
        t = extractTextFromElement (substrJS doc r.start r.stop)) ∧
    ((∀ p ∈ markerScan "w:commentRangeEnd" doc, p.1 ≠ c.id) →
      (enrichComment doc (commentRanges doc) c).commentedText = none) := by
  constructor
  · intro t
    cases hl : lookupR (commentRanges doc) c.id with
    | none =>
      rw [enrichComment_of_lookup_none doc _ c hl, hc]
      simp
    | some r =>
      by_cases hg : 0 ≤ r.start ∧ r.start < r.stop
      · rw [enrichComment_of_lookup_some_pos doc _ c r hl hg]
        constructor
        · intro h
          injection h with h
          exact ⟨r, rfl, hg.1, hg.2, h.symm⟩
        · rintro ⟨r1, hr1, -, -, ht⟩
          injection hr1 with hr1
          subst hr1
          rw [ht]
      · rw [enrichComment_of_lookup_some_neg doc _ c r hl hg, hc]
        constructor
        · intro h
          exact absurd h (by simp)
        · rintro ⟨r1, hr1, h0, hlt, -⟩
          injection hr1 with hr1
          subst hr1
          exact absurd ⟨h0, hlt⟩ hg
  · intro hend
    have hEnone : lastOcc c.id (markerScan "w:commentRangeEnd" doc) = none :=
      lastOcc_eq_none _ _ (fun p hp => hend p hp)
    cases hsS : lastOcc c.id (markerScan "w:commentRangeStart" doc) with
    | none =>
      have hl : lookupR (commentRanges doc) c.id = none := by
        rw [commentRanges_lookup, hsS]
      rw [enrichComment_of_lookup_none doc _ c hl, hc]
    | some i =>
      have hl : lookupR (commentRanges doc) c.id = some ⟨(i : Int), -1⟩ := by
        rw [commentRanges_lookup, hsS, hEnone]
      have hg : ¬(0 ≤ (⟨(i : Int), -1⟩ : CRange).start ∧
          (⟨(i : Int), -1⟩ : CRange).start < (⟨(i : Int), -1⟩ : CRange).stop) := by
        intro hcon
        have h2 : (i : Int) < -1 := hcon.2
        omega
      rw [enrichComment_of_lookup_some_neg doc _ c _ hl hg, hc]

theorem c3_witness :
    (enrichComment docAnchor (commentRanges docAnchor) commentNote).commentedText =
      some "target phrase" :=
  ((c3 docAnchor commentNote rfl).1 "target phrase").mpr
    ⟨⟨0, 55⟩, by decide, by decide, by decide, by decide⟩

/-- Claim C4, counterexample: in a document whose range-start marker for id
`1` occurs at offsets 0 and 33, the recorded start is 33 — the last
occurrence, not the first occurrence as claimed. -/
theorem c4_counterexample :
    markerScan "w:commentRangeStart" docDup = [("1", 0), ("1", 33)] ∧
    lookupR (commentRanges docDup) "1" = some ⟨33, -1⟩ := by
  exact ⟨by decide, by decide⟩

/-- Claim C4 as amended: when repeated range markers share an id, the last
occurrence wins for the recorded start as well as for the recorded end (the
single pass overwrites the map entry on repeat); an id with no end marker
keeps end `-1`. -/
theorem c4_amended (doc : String) (id : String) (r : CRange)
    (h : lookupR (commentRanges doc) id = some r) :
    (∃ i, lastOcc id (markerScan "w:commentRangeStart" doc) = some i ∧ r.start = (i : Int)) ∧
    r.stop = (match lastOcc id (markerScan "w:commentRangeEnd" doc) with
              | some j => (j : Int)
              | none => -1) := by
  rw [commentRanges_lookup] at h
  cases hs : lastOcc id (markerScan "w:commentRangeStart" doc) with
  | none =>
    rw [hs] at h
    exact absurd h (by simp)
  | some i =>
    rw [hs] at h
    have h2 : some (⟨(i : Int),
        match lastOcc id (markerScan "w:commentRangeEnd" doc) with
        | some j => (j : Int)
        | none => -1⟩ : CRange) = some r := h
    injection h2 with h2
    subst h2
    exact ⟨⟨i, rfl, rfl⟩, rfl⟩

theorem c4_amended_witness :
    (∃ i, lastOcc "1" (markerScan "w:commentRangeStart" docDup) = some i ∧
      (⟨33, -1⟩ : CRange).start = (i : Int)) ∧
    (⟨33, -1⟩ : CRange).stop =
      (match lastOcc "1" (markerScan "w:commentRangeEnd" docDup) with
       | some j => (j : Int)
       | none => -1) :=
  c4_amended docDup "1" ⟨33, -1⟩ (by decide)

/-- Claim C7: the anchor resolver returns as many comments as it is given, in
order, each agreeing with its input on id, author, date and text; the only
field it may change is the anchored-text field, and only by setting it. -/
theorem c7 (doc : String) (cs : List Comment) :
    (findCommentedText doc cs).length = cs.length ∧
    ∀ (i : Nat) (h1 : i < cs.length) (h2 : i < (findCommentedText doc cs).length),
      ((findCommentedText doc cs).get ⟨i, h2⟩).id = (cs.get ⟨i, h1⟩).id ∧
      ((findCommentedText doc cs).get ⟨i, h2⟩).author = (cs.get ⟨i, h1⟩).author ∧
      ((findCommentedText doc cs).get ⟨i, h2⟩).date = (cs.get ⟨i, h1⟩).date ∧
      ((findCommentedText doc cs).get ⟨i, h2⟩).text = (cs.get ⟨i, h1⟩).text ∧
      (((findCommentedText doc cs).get ⟨i, h2⟩).commentedText =
          (cs.get ⟨i, h1⟩).commentedText ∨
        ∃ t, ((findCommentedText doc cs).get ⟨i, h2⟩).commentedText = some t) := by
  constructor
  · exact List.length_map _ _
  · intro i h1 h2
    have hget : (findCommentedText doc cs).get ⟨i, h2⟩
        = enrichComment doc (commentRanges doc) (cs.get ⟨i, h1⟩) := by
      show (cs.map (enrichComment doc (commentRanges doc))).get ⟨i, h2⟩ = _
      rw [List.get_eq_getElem, List.get_eq_getElem, List.getElem_map]
    rw [hget]
    exact enrichComment_fields doc _ _

theorem c7_witness :
    (findCommentedText docAnchor [commentNote]).length = [commentNote].length ∧
    ((findCommentedText docAnchor [commentNote]).get ⟨0, by decide⟩).author =
      ([commentNote].get ⟨0, by decide⟩).author :=
  ⟨(c7 docAnchor [commentNote]).1,
    ((c7 docAnchor [commentNote]).2 0 (by decide) (by decide)).2.1⟩

/-- Claim C10: a comment whose id is not a non-empty decimal-digit string (in
particular the default empty id) can never gain anchored text, because range
markers are only matched with all-digit ids, so the position map holds no
entry for such an id. -/
theorem c10 (doc : String) (c : Comment) (cs : List Comment)
    (h : digitId c.id = false) (hmem : c ∈ cs) :
    enrichComment doc (commentRanges doc) c = c ∧ c ∈ findCommentedText doc cs := by
  have hl : lookupR (commentRanges doc) c.id = none := by
    cases hs : lastOcc c.id (markerScan "w:commentRangeStart" doc) with
    | none => rw [commentRanges_lookup, hs]
    | some i =>
      exfalso
      obtain ⟨p, hp, hpid, -⟩ := lastOcc_mem c.id _ i hs
      have hdig := markerScan_digit "w:commentRangeStart" doc p hp
      rw [hpid, h] at hdig
      exact Bool.noConfusion hdig
  have he : enrichComment doc (commentRanges doc) c = c :=
    enrichComment_of_lookup_none doc _ c hl
  refine ⟨he, ?_⟩
  have hmap : enrichComment doc (commentRanges doc) c ∈ findCommentedText doc cs :=
    List.mem_map_of_mem _ hmem
  rwa [he] at hmap

theorem c10_witness :
    enrichComment docAnchor (commentRanges docAnchor) commentNoId = commentNoId ∧
    commentNoId ∈ findCommentedText docAnchor [commentNoId] :=
  c10 docAnchor commentNoId [commentNoId] (by decide) (by decide)

end Docx
